import Mathlib

/-!
Verification of the wskv transactional key-value core.

This file shallowly embeds the two server-side commit validators
(`WskvServer.handleCommit` from the Go in-memory server and `dbCommit`
from the Durable-Object SQLite module with range-based validation),
the server read operations (`handleGet`, `handleList` / `dbList`), and
the client transaction runtime (`wskvTxn.get` / `scan` / `set` /
`delete`, `wskvClient.txn`, `wskvClient.scan`, `wskvClient.reset`).

Keys and values are byte strings, modelled as `List Nat`; the Go map
and the SQLite table are modelled as association lists with update-in-
place semantics.  The WebSocket channel is modelled by a boolean
`ch` flag: `false` means the channel is down, in which case `send`
fails with the "websocket closed" error, exactly as in the source.
-/

namespace Wskv

/-- A key is an arbitrary byte string; comparison is unsigned lexicographic. -/
abbrev Key := List Nat

/-- A value is an arbitrary byte string. -/
abbrev Value := List Nat

/-- A stored entry: value plus the per-key version counter
(`wskvServerEntry` in the Go server; the `v, ver` columns of `jfs_kv`). -/
structure Entry where
  value : Value
  ver : Nat
deriving DecidableEq, Repr

/-- The server store: a map from key to entry (the Go
`map[string]*wskvServerEntry`, or the `jfs_kv` SQLite table). -/
abbrev Store := List (Key × Entry)

/-- Map lookup (`s.store[string(key)]`, `SELECT ... WHERE k = ?`). -/
def storeGet : Store → Key → Option Entry
  | [], _ => none
  | (k', e) :: rest, k => if k' = k then some e else storeGet rest k

/-- Current version of a key, `0` when absent (the `curVer` computation
in `handleCommit` and `dbCommit`). -/
def curVer (s : Store) (k : Key) : Nat :=
  match storeGet s k with
  | some e => e.ver
  | none => 0

/-- Apply one put (`handleCommit`'s put loop body: bump the version and
replace the value when present, otherwise create at version 1; the SQL
`INSERT ... ON CONFLICT(k) DO UPDATE SET v = excluded.v, ver = ver + 1`
has the same semantics). -/
def storePut : Store → Key → Value → Store
  | [], k, v => [(k, ⟨v, 1⟩)]
  | (k', e) :: rest, k, v =>
    if k' = k then (k', ⟨v, e.ver + 1⟩) :: rest
    else (k', e) :: storePut rest k v

/-- Apply one delete (`delete(s.store, string(del))`,
`DELETE FROM jfs_kv WHERE k = ?`). -/
def storeDel : Store → Key → Store
  | [], _ => []
  | (k', e) :: rest, k =>
    if k' = k then storeDel rest k else (k', e) :: storeDel rest k

/-- Strict unsigned lexicographic byte-string comparison (Go string `<`,
SQLite BLOB comparison). -/
def keyLt : Key → Key → Bool
  | [], [] => false
  | [], _ :: _ => true
  | _ :: _, [] => false
  | a :: as, b :: bs => if a < b then true else if b < a then false else keyLt as bs

/-- Non-strict lexicographic comparison (`k >= start` in Go / SQL). -/
def keyLe (a b : Key) : Bool := !keyLt b a

/-- Whether key `k` lies in the half-open interval `[start, stop)`
(`k >= start && k < end` in `handleList`; `k >= ? AND k < ?` in SQL). -/
def inRange (start stop k : Key) : Bool := keyLe start k && keyLt k stop

/-- Insert one entry into a key-sorted list of entries. -/
def insertEntry (p : Key × Entry) : List (Key × Entry) → List (Key × Entry)
  | [] => [p]
  | q :: rest => if keyLt p.1 q.1 then p :: q :: rest else q :: insertEntry p rest

/-- Sort entries in ascending key order (`sort.Strings(keys)` in the Go
server; `ORDER BY k` in SQL). -/
def sortEntries : List (Key × Entry) → List (Key × Entry)
  | [] => []
  | p :: rest => insertEntry p (sortEntries rest)

/-- Apply a limit: `limit > 0` caps the result, `limit == 0` means
unbounded (the `LIMIT ?` clause added only when `opts.limit > 0`, and
the Go `if limit > 0 && len(entries) >= limit { break }`). -/
def takeLimit (limit : Nat) (l : List (Key × Entry)) : List (Key × Entry) :=
  if limit > 0 then l.take limit else l

/-- The range query both servers use for listing and for commit
validation: entries with `start ≤ key < stop`, ascending by key,
capped by `limit` (`handleList` in the Go server, `dbList` and the
validation re-scan of `dbCommit` in db.ts). -/
def dbList (s : Store) (start stop : Key) (limit : Nat) : List (Key × Entry) :=
  takeLimit limit (sortEntries (s.filter (fun p => inRange start stop p.1)))

/-- One observed entry inside a read range (`ReadEntryItem` in db.ts). -/
structure ReadEntryItem where
  key : Key
  ver : Nat
deriving DecidableEq, Repr

/-- A recorded read range (`ReadRangeEntry` in db.ts): what the
transaction observed over `[start, stop)` with the given limit. -/
structure ReadRangeEntry where
  start : Key
  stop : Key
  entries : List ReadEntryItem
  keysOnly : Bool
  limit : Nat
deriving DecidableEq, Repr

/-- A proposed put (`PutEntry` in db.ts, `pb.Put` on the wire). -/
structure PutEntry where
  key : Key
  value : Value
deriving DecidableEq, Repr

/-- Result of a commit (`CommitResult` in db.ts, `pb.CommitResponse`
minus the echoed id). -/
structure CommitResult where
  ok : Bool
  error : String
deriving DecidableEq, Repr

/-- The per-range comparison loop of `dbCommit`: the current rows and
the recorded entries must have the same length, pairwise equal keys,
and — unless the range was recorded `keysOnly` — pairwise equal
versions. -/
def rowsMatch (keysOnly : Bool) : List (Key × Entry) → List ReadEntryItem → Bool
  | [], [] => true
  | (k, e) :: rest, obs :: obsRest =>
    k = obs.key && (keysOnly || e.ver = obs.ver) && rowsMatch keysOnly rest obsRest
  | _, _ => false

/-- Validate one read range against the current store (`dbCommit`'s
re-scan with the recorded limit followed by the comparison loop). -/
def validateRange (s : Store) (rng : ReadRangeEntry) : Bool :=
  rowsMatch rng.keysOnly (dbList s rng.start rng.stop rng.limit) rng.entries

/-- Apply all puts in order (the put loop shared by `handleCommit` and
`dbCommit`). -/
def applyPuts (s : Store) (puts : List PutEntry) : Store :=
  puts.foldl (fun s p => storePut s p.key p.value) s

/-- Apply all deletes in order (the delete loop shared by
`handleCommit` and `dbCommit`). -/
def applyDels (s : Store) (dels : List Key) : Store :=
  dels.foldl storeDel s

/-- `dbCommit` (db.ts): inside one synchronous storage transaction,
validate every read range against the current store; on any mismatch
return `ok=false, error="write conflict"` leaving the store untouched,
otherwise apply all puts then all deletes and return `ok=true`. -/
def dbCommit (s : Store) (reads : List ReadRangeEntry) (puts : List PutEntry)
    (dels : List Key) : CommitResult × Store :=
  if reads.all (fun rng => validateRange s rng) then
    (⟨true, ""⟩, applyDels (applyPuts s puts) dels)
  else
    (⟨false, "write conflict"⟩, s)

/-- A flat observed entry (`pb.Observed`), the read-set shape the Go
client sends and the Go in-memory server validates. -/
structure Observed where
  key : Key
  ver : Nat
deriving DecidableEq, Repr

/-- A commit request as the Go client builds it (`pb.CommitRequest`
minus the id): flat observed list, puts, deletes. -/
structure CommitRequest where
  observed : List Observed
  puts : List PutEntry
  dels : List Key
deriving DecidableEq, Repr

/-- The observed-version check loop of the Go `handleCommit`: every
observed key's current version (0 when absent) must equal the recorded
version. -/
def checkObserved (s : Store) : List Observed → Bool
  | [] => true
  | obs :: rest => curVer s obs.key = obs.ver && checkObserved s rest

/-- `WskvServer.handleCommit` (Go in-memory server): under the store
mutex, check all observed versions; on any mismatch reply
`ok=false, error="write conflict"` without mutating, otherwise apply
all puts then all deletes and reply `ok=true`. -/
def handleCommit (s : Store) (req : CommitRequest) : CommitResult × Store :=
  if checkObserved s req.observed then
    (⟨true, ""⟩, applyDels (applyPuts s req.puts) req.dels)
  else
    (⟨false, "write conflict"⟩, s)

/-- A get response (`pb.GetResponse` minus the echoed id). -/
structure GetResp where
  found : Bool
  value : Value
  ver : Nat
deriving DecidableEq, Repr

/-- `WskvServer.handleGet` / `dbGet`: report the entry when present,
else `found=false` with version 0. -/
def handleGet (s : Store) (k : Key) : GetResp :=
  match storeGet s k with
  | some e => ⟨true, e.value, e.ver⟩
  | none => ⟨false, [], 0⟩

/-- A wire list entry (`pb.Entry`): the value is omitted when the
request was `keysOnly`. -/
structure WireEntry where
  key : Key
  value : Option Value
  ver : Nat
deriving DecidableEq, Repr

/-- `WskvServer.handleList` / `dbList` on the wire: the ranged entries,
with values omitted under `keysOnly`. -/
def handleList (s : Store) (start stop : Key) (keysOnly : Bool) (limit : Nat) :
    List WireEntry :=
  (dbList s start stop limit).map
    (fun p => ⟨p.1, if keysOnly then none else some p.2.value, p.2.ver⟩)

/-! ## Client transaction runtime -/

/-- Map lookup on a client-side association map (`tx.buffer[k]`,
`tx.observed[k]`). -/
def mapGet {β : Type} : List (Key × β) → Key → Option β
  | [], _ => none
  | (k', v') :: rest, k => if k' = k then some v' else mapGet rest k

/-- Map assignment (`m[k] = v` on a Go map): replace in place when the
key is present, otherwise append. -/
def mapSet {β : Type} : List (Key × β) → Key → β → List (Key × β)
  | [], k, v => [(k, v)]
  | (k', v') :: rest, k, v =>
    if k' = k then (k, v) :: rest else (k', v') :: mapSet rest k v

/-- Client transaction state (`wskvTxn`): the observed read-set maps a
raw key to the version seen; the write buffer maps a raw key to the
buffered value, `none` meaning a buffered delete (Go buffers `nil`). -/
structure TxnState where
  observed : List (Key × Nat)
  buffer : List (Key × Option Value)
deriving DecidableEq, Repr

/-- Outcome of one `wskvTxn.get`: the returned value (`none` = absent),
the updated transaction state, and the number of RPC sends attempted. -/
structure GetOutcome where
  result : Option Value
  tx : TxnState
  rpcs : Nat
deriving DecidableEq, Repr

/-- `wskvTxn.get`: a buffered key answers from the buffer with no RPC
(a buffered delete answers absent); otherwise a `GetReq` is sent.  On a
dead channel (`ch = false`) the send errors and the code records
version 0 and returns nil; on success it records the responded version
(0 when not found) and returns the value when found. -/
def txnGet (ch : Bool) (store : Store) (tx : TxnState) (k : Key) : GetOutcome :=
  match mapGet tx.buffer k with
  | some v => ⟨v, tx, 0⟩
  | none =>
    if ch then
      let r := handleGet store k
      ⟨if r.found then some r.value else none,
        { tx with observed := mapSet tx.observed k r.ver }, 1⟩
    else
      ⟨none, { tx with observed := mapSet tx.observed k 0 }, 1⟩

/-- The observation loop of `wskvTxn.scan`: record each returned entry
in the observed set, then hand it to the handler; stop after the entry
on which the handler returns false.  The handler is modelled as
accepting the first `n` entries and refusing the next. -/
def scanLoop (tx : TxnState) : List WireEntry → Nat → TxnState
  | [], _ => tx
  | e :: rest, n =>
    let tx' := { tx with observed := mapSet tx.observed e.key e.ver }
    match n with
    | 0 => tx'
    | n + 1 => scanLoop tx' rest n

/-- One operation a transaction body can perform on the handle
(`get`, `set`, `delete`, `scan`, `exist` of `wskvTxn`).  A scan's
handler is represented by the number of entries it accepts before
returning false. -/
inductive TxnOp where
  | get (k : Key)
  | set (k : Key) (v : Value)
  | del (k : Key)
  | scan (start stop : Key) (keysOnly : Bool) (accept : Nat)
  | exist (start stop : Key)
deriving DecidableEq, Repr

/-- Whether an operation writes to the buffer (`set` or `delete`). -/
def TxnOp.isWrite : TxnOp → Bool
  | .set _ _ => true
  | .del _ => true
  | _ => false

/-- Effect of one operation on the transaction state.  `get` behaves as
`txnGet`; `set`/`delete` only buffer; `scan` sends a `ListReq` with no
limit and observes returned entries through its handler loop (on a dead
channel the send errors and `scan` returns having observed nothing);
`exist` sends a `keysOnly, limit=1` list over the prefix range and
records every returned entry. -/
def applyOp (ch : Bool) (store : Store) (tx : TxnState) : TxnOp → TxnState
  | .get k => (txnGet ch store tx k).tx
  | .set k v => { tx with buffer := mapSet tx.buffer k (some v) }
  | .del k => { tx with buffer := mapSet tx.buffer k none }
  | .scan start stop keysOnly accept =>
    if ch then scanLoop tx (handleList store start stop keysOnly 0) accept else tx
  | .exist start stop =>
    if ch then
      (handleList store start stop true 1).foldl
        (fun tx e => { tx with observed := mapSet tx.observed e.key e.ver }) tx
    else tx

/-- Run a transaction body, given as the list of handle operations it
performs in order, from the fresh state `wskvClient.txn` allocates. -/
def runOps (ch : Bool) (store : Store) (ops : List TxnOp) : TxnState :=
  ops.foldl (applyOp ch store) ⟨[], []⟩

/-- Build the commit message from the transaction state
(`wskvClient.txn`): one `Observed` per observed-map entry; each
buffered `nil` becomes a delete and each buffered value a put. -/
def buildCommit (tx : TxnState) : CommitRequest :=
  { observed := tx.observed.map (fun p => ⟨p.1, p.2⟩)
    puts := tx.buffer.filterMap (fun p => p.2.map (fun v => PutEntry.mk p.1 v))
    dels := tx.buffer.filterMap (fun p => if p.2 = none then some p.1 else none) }

/-- Result of `wskvClient.txn`: the returned error (if any), the store
after the call, and the commit requests that were sent to the server. -/
structure TxnResult where
  result : Except String Unit
  store : Store
  commits : List CommitRequest
deriving Repr

/-- `wskvClient.txn`: run the body; surface its error without
committing; skip commit when the buffer is empty; otherwise send one
`CommitReq` — a dead channel fails the send with "websocket closed",
and a served commit answering `ok=false` surfaces "write conflict". -/
def runTxn (ch : Bool) (store : Store) (body : Except String TxnState) : TxnResult :=
  match body with
  | .error e => ⟨.error e, store, []⟩
  | .ok tx =>
    if tx.buffer = [] then ⟨.ok (), store, []⟩
    else if ch then
      let req := buildCommit tx
      let (resp, store') := handleCommit store req
      if resp.ok then ⟨.ok (), store', [req]⟩
      else ⟨.error "write conflict", store', [req]⟩
    else ⟨.error "websocket closed", store, []⟩

/-- Modelled from the spec: the `nextKey` helper (defined outside this
module's sources) that turns a prefix into the exclusive upper bound of
its key range; the spec describes the range as `[p, p+1)`, i.e. the
prefix with its last byte incremented. -/
def nextKey (p : Key) : Key :=
  match p.reverse with
  | [] => []
  | b :: rest => ((b + 1) :: rest).reverse

/-- `wskvClient.scan` (the non-transactional client scan): send a
`ListReq` over `[prefix, nextKey prefix)` with no `keysOnly` and no
limit, failing with "websocket closed" on a dead channel.  It records
no observations. -/
def clientScan (ch : Bool) (store : Store) (p : Key) :
    Except String (List WireEntry) :=
  if ch then .ok (handleList store p (nextKey p) false 0) else .error "websocket closed"

/-- `wskvClient.reset` for a non-empty prefix: run a transaction whose
body scans the prefix with the client scan and buffers a delete for
every key it returns.  (The empty-prefix branch sends a `ResetReq`
instead and is not modelled here.) -/
def clientReset (ch : Bool) (store : Store) (p : Key) : TxnResult :=
  match clientScan ch store p with
  | .error e => runTxn ch store (.error e)
  | .ok entries =>
    runTxn ch store
      (.ok (entries.foldl
        (fun tx e => { tx with buffer := mapSet tx.buffer e.key none }) ⟨[], []⟩))

/-! ### Proof infrastructure: the key projection of the entry sort -/

/-- Insertion of a single key into a sorted key list; the key-level
shadow of `insertEntry`. -/
def insertKey (k : Key) : List Key → List Key
  | [] => [k]
  | k' :: rest => if keyLt k k' then k :: k' :: rest else k' :: insertKey k rest

/-- Key-level shadow of `sortEntries`: sorting entries and projecting
to keys is the same as sorting the projected keys. -/
def sortKeys : List Key → List Key
  | [] => []
  | k :: rest => insertKey k (sortKeys rest)

/-! ## Lemmas about the store primitives -/

theorem storeGet_storePut_self (s : Store) (k : Key) (v : Value) :
    storeGet (storePut s k v) k =
      some ⟨v, match storeGet s k with | some e => e.ver + 1 | none => 1⟩ := by
  induction s with
  | nil => simp [storeGet, storePut]
  | cons p rest ih =>
    obtain ⟨k', e⟩ := p
    by_cases h : k' = k
    · subst h
      simp [storeGet, storePut]
    · simp [storeGet, storePut, h, ih]

theorem storeGet_storePut_ne (s : Store) (k k' : Key) (v : Value) (h : k' ≠ k) :
    storeGet (storePut s k' v) k = storeGet s k := by
  induction s with
  | nil => simp [storeGet, storePut, h]
  | cons p rest ih =>
    obtain ⟨k'', e⟩ := p
    by_cases h2 : k'' = k'
    · subst h2
      simp [storeGet, storePut, h]
    · by_cases h3 : k'' = k <;> simp [storeGet, storePut, h2, h3, ih, Ne.symm h]

theorem storeGet_storeDel_self (s : Store) (k : Key) :
    storeGet (storeDel s k) k = none := by
  induction s with
  | nil => simp [storeGet, storeDel]
  | cons p rest ih =>
    obtain ⟨k', e⟩ := p
    by_cases h : k' = k <;> simp [storeGet, storeDel, h, ih]

theorem storeGet_storeDel_ne (s : Store) (k k' : Key) (h : k' ≠ k) :
    storeGet (storeDel s k') k = storeGet s k := by
  induction s with
  | nil => simp [storeDel]
  | cons p rest ih =>
    obtain ⟨k'', e⟩ := p
    by_cases h2 : k'' = k'
    · subst h2
      simp [storeGet, storeDel, h, ih]
    · by_cases h3 : k'' = k <;> simp [storeGet, storeDel, h2, h3, ih, Ne.symm h]

theorem storeGet_applyPuts_notMem (s : Store) (puts : List PutEntry) (k : Key)
    (h : k ∉ puts.map (fun p => p.key)) :
    storeGet (applyPuts s puts) k = storeGet s k := by
  induction puts generalizing s with
  | nil => rfl
  | cons p rest ih =>
    simp only [List.map_cons, List.mem_cons] at h
    push_neg at h
    simp only [applyPuts, List.foldl_cons]
    rw [show (rest.foldl (fun s p => storePut s p.key p.value) (storePut s p.key p.value)) =
      applyPuts (storePut s p.key p.value) rest from rfl]
    rw [ih _ h.2, storeGet_storePut_ne _ _ _ _ (fun hc => h.1 hc.symm)]

theorem storeGet_applyDels_notMem (s : Store) (dels : List Key) (k : Key)
    (h : k ∉ dels) :
    storeGet (applyDels s dels) k = storeGet s k := by
  induction dels generalizing s with
  | nil => rfl
  | cons d rest ih =>
    simp only [List.mem_cons] at h
    push_neg at h
    simp only [applyDels, List.foldl_cons]
    rw [show (rest.foldl storeDel (storeDel s d)) = applyDels (storeDel s d) rest from rfl]
    rw [ih _ h.2, storeGet_storeDel_ne _ _ _ (fun hc => h.1 hc.symm)]

theorem storeGet_applyDels_mem (s : Store) (dels : List Key) (k : Key)
    (h : k ∈ dels) :
    storeGet (applyDels s dels) k = none := by
  induction dels generalizing s with
  | nil => cases h
  | cons d rest ih =>
    simp only [applyDels, List.foldl_cons]
    rw [show (rest.foldl storeDel (storeDel s d)) = applyDels (storeDel s d) rest from rfl]
    rcases List.mem_cons.mp h with h1 | h2
    · subst h1
      by_cases hr : k ∈ rest
      · exact ih _ hr
      · rw [storeGet_applyDels_notMem _ _ _ hr, storeGet_storeDel_self]
    · exact ih _ h2

/-! ## C1: commits are atomic all-or-nothing -/

theorem dbCommit_ok_iff (s : Store) (reads : List ReadRangeEntry)
    (puts : List PutEntry) (dels : List Key) :
    (dbCommit s reads puts dels).1.ok = false ↔
      ∃ rng ∈ reads, validateRange s rng = false := by
  unfold dbCommit
  by_cases h : reads.all (fun rng => validateRange s rng) = true
  · rw [if_pos h]
    rw [List.all_eq_true] at h
    constructor
    · intro hc; cases hc
    · rintro ⟨rng, hm, hv⟩
      rw [h rng hm] at hv
      cases hv
  · rw [if_neg h]
    rw [List.all_eq_true] at h
    push_neg at h
    obtain ⟨rng, hm, hv⟩ := h
    constructor
    · intro _
      exact ⟨rng, hm, Bool.eq_false_iff.mpr hv⟩
    · intro _
      rfl

theorem handleCommit_ok_iff (s : Store) (req : CommitRequest) :
    (handleCommit s req).1.ok = false ↔
      ∃ obs ∈ req.observed, curVer s obs.key ≠ obs.ver := by
  unfold handleCommit
  have hch : ∀ l : List Observed, checkObserved s l = true ↔
      ∀ obs ∈ l, curVer s obs.key = obs.ver := by
    intro l
    induction l with
    | nil => simp [checkObserved]
    | cons o rest ih => simp [checkObserved, ih]
  by_cases h : checkObserved s req.observed = true
  · rw [if_pos h]
    rw [hch] at h
    constructor
    · intro hc; cases hc
    · rintro ⟨obs, hm, hv⟩
      exact absurd (h obs hm) hv
  · rw [if_neg h]
    rw [hch] at h
    push_neg at h
    exact ⟨fun _ => h, fun _ => rfl⟩

/-- C1: every commit is atomic.  For the range-validating `dbCommit`
and for the Go `handleCommit` alike: when any read validation fails the
response is `ok=false` with error "write conflict" and the store is
returned completely unchanged; when validation succeeds the response is
`ok=true` and the resulting store is exactly all puts applied followed
by all deletes. -/
theorem commit_atomic (s : Store) (reads : List ReadRangeEntry)
    (puts : List PutEntry) (dels : List Key) (req : CommitRequest) :
    ((dbCommit s reads puts dels).1.ok = false ↔
        ∃ rng ∈ reads, validateRange s rng = false) ∧
    ((dbCommit s reads puts dels).1.ok = false →
        (dbCommit s reads puts dels).1.error = "write conflict" ∧
        (dbCommit s reads puts dels).2 = s) ∧
    ((dbCommit s reads puts dels).1.ok = true →
        (dbCommit s reads puts dels).1.error = "" ∧
        (dbCommit s reads puts dels).2 = applyDels (applyPuts s puts) dels) ∧
    ((handleCommit s req).1.ok = false ↔
        ∃ obs ∈ req.observed, curVer s obs.key ≠ obs.ver) ∧
    ((handleCommit s req).1.ok = false →
        (handleCommit s req).1.error = "write conflict" ∧
        (handleCommit s req).2 = s) ∧
    ((handleCommit s req).1.ok = true →
        (handleCommit s req).1.error = "" ∧
        (handleCommit s req).2 = applyDels (applyPuts s req.puts) req.dels) := by
  refine ⟨dbCommit_ok_iff s reads puts dels, ?_, ?_, handleCommit_ok_iff s req, ?_, ?_⟩
  · unfold dbCommit; split <;> simp_all
  · unfold dbCommit; split <;> simp_all
  · unfold handleCommit; split <;> simp_all
  · unfold handleCommit; split <;> simp_all

/-- Witness for C1 at concrete inputs: a failing validation (observed
version 1 against an empty store) leaves the store unchanged with a
"write conflict" error, and an empty read-set commit applies its put. -/
theorem commit_atomic_witness :
    (dbCommit [] [⟨[97], [98], [⟨[97], 1⟩], false, 0⟩] [⟨[99], [1]⟩] []).1.error =
        "write conflict" ∧
    (dbCommit [] [⟨[97], [98], [⟨[97], 1⟩], false, 0⟩] [⟨[99], [1]⟩] []).2 = [] ∧
    (dbCommit [] [] [⟨[99], [1]⟩] []).2 =
        applyDels (applyPuts [] [⟨[99], [1]⟩]) [] := by
  refine ⟨(commit_atomic [] [⟨[97], [98], [⟨[97], 1⟩], false, 0⟩] [⟨[99], [1]⟩] []
      ⟨[], [], []⟩).2.1 (by decide) |>.1,
    (commit_atomic [] [⟨[97], [98], [⟨[97], 1⟩], false, 0⟩] [⟨[99], [1]⟩] []
      ⟨[], [], []⟩).2.1 (by decide) |>.2,
    (commit_atomic [] [] [⟨[99], [1]⟩] [] ⟨[], [], []⟩).2.2.1 (by decide) |>.2⟩

/-! ## C2: the versioning rule -/

theorem dbCommit_ok_store (s : Store) (reads : List ReadRangeEntry)
    (puts : List PutEntry) (dels : List Key)
    (h : (dbCommit s reads puts dels).1.ok = true) :
    (dbCommit s reads puts dels).2 = applyDels (applyPuts s puts) dels := by
  unfold dbCommit at *
  split at h
  · rw [if_pos (by assumption)]
  · cases h

theorem handleCommit_ok_store (s : Store) (req : CommitRequest)
    (h : (handleCommit s req).1.ok = true) :
    (handleCommit s req).2 = applyDels (applyPuts s req.puts) req.dels := by
  unfold handleCommit at *
  split at h
  · rw [if_pos (by assumption)]
  · cases h

theorem applyPuts_append (s : Store) (l1 l2 : List PutEntry) :
    applyPuts s (l1 ++ l2) = applyPuts (applyPuts s l1) l2 :=
  List.foldl_append ..

theorem storeGet_applyAll_put (s : Store) (puts1 puts2 : List PutEntry)
    (k : Key) (v : Value) (dels : List Key)
    (h1 : k ∉ puts1.map (fun p => p.key)) (h2 : k ∉ puts2.map (fun p => p.key))
    (hd : k ∉ dels) :
    storeGet (applyDels (applyPuts s (puts1 ++ ⟨k, v⟩ :: puts2)) dels) k =
      some ⟨v, match storeGet s k with | some e => e.ver + 1 | none => 1⟩ := by
  rw [storeGet_applyDels_notMem _ _ _ hd, applyPuts_append]
  have hmid : applyPuts (applyPuts s puts1) (⟨k, v⟩ :: puts2) =
      applyPuts (storePut (applyPuts s puts1) k v) puts2 := rfl
  rw [hmid, storeGet_applyPuts_notMem _ _ _ h2, storeGet_storePut_self,
    storeGet_applyPuts_notMem _ _ _ h1]

theorem mem_storePut (s : Store) (k : Key) (v : Value) (p : Key × Entry)
    (hp : p ∈ storePut s k v) : p ∈ s ∨ 1 ≤ p.2.ver := by
  induction s with
  | nil =>
    simp only [storePut, List.mem_singleton] at hp
    right; rw [hp]
  | cons q rest ih =>
    obtain ⟨k', e⟩ := q
    by_cases h : k' = k
    · subst h
      rw [storePut, if_pos rfl] at hp
      rcases List.mem_cons.mp hp with rfl | h2
      · right; exact Nat.le_add_left 1 e.ver
      · left; exact List.mem_cons_of_mem _ h2
    · rw [storePut, if_neg h] at hp
      rcases List.mem_cons.mp hp with rfl | h2
      · left; exact List.mem_cons_self ..
      · rcases ih h2 with h3 | h3
        · left; exact List.mem_cons_of_mem _ h3
        · right; exact h3

theorem mem_storeDel (s : Store) (k : Key) (p : Key × Entry)
    (hp : p ∈ storeDel s k) : p ∈ s := by
  induction s with
  | nil => exact absurd hp (List.not_mem_nil p)
  | cons q rest ih =>
    obtain ⟨k', e⟩ := q
    by_cases h : k' = k
    · rw [storeDel, if_pos h] at hp
      exact List.mem_cons_of_mem _ (ih hp)
    · rw [storeDel, if_neg h] at hp
      rcases List.mem_cons.mp hp with h1 | h2
      · rw [h1]; exact List.mem_cons_self ..
      · exact List.mem_cons_of_mem _ (ih h2)

theorem applyPuts_ver_ge_one (s : Store) (puts : List PutEntry)
    (hs : ∀ p ∈ s, 1 ≤ p.2.ver) : ∀ p ∈ applyPuts s puts, 1 ≤ p.2.ver := by
  induction puts generalizing s with
  | nil => exact hs
  | cons q rest ih =>
    intro p hp
    refine ih (storePut s q.key q.value) (fun r hr => ?_) p hp
    rcases mem_storePut s q.key q.value r hr with h1 | h1
    · exact hs r h1
    · exact h1

theorem applyDels_ver_ge_one (s : Store) (dels : List Key)
    (hs : ∀ p ∈ s, 1 ≤ p.2.ver) : ∀ p ∈ applyDels s dels, 1 ≤ p.2.ver := by
  induction dels generalizing s with
  | nil => exact hs
  | cons d rest ih =>
    intro p hp
    exact ih (storeDel s d) (fun q hq => hs q (mem_storeDel s d q hq)) p hp

theorem applyAll_ver_ge_one (s : Store) (puts : List PutEntry) (dels : List Key)
    (hs : ∀ p ∈ s, 1 ≤ p.2.ver) :
    ∀ p ∈ applyDels (applyPuts s puts) dels, 1 ≤ p.2.ver :=
  applyDels_ver_ge_one _ _ (applyPuts_ver_ge_one _ _ hs)

/-- C2: for every successful commit (through either validator), a put
of key `k` appearing once among the puts, with `k` not deleted, sets
`k`'s version to `prev+1` when `k` was present before the commit and to
`1` when absent (in particular a put after a delete-commit re-creates
the key at version 1); a delete of `k` removes the entry entirely; and
both validators preserve the invariant that every stored version is at
least 1. -/
theorem commit_version_rule :
    (∀ s reads puts1 puts2 k v dels,
      k ∉ puts1.map (fun p => p.key) → k ∉ puts2.map (fun p => p.key) → k ∉ dels →
      (dbCommit s reads (puts1 ++ ⟨k, v⟩ :: puts2) dels).1.ok = true →
      storeGet (dbCommit s reads (puts1 ++ ⟨k, v⟩ :: puts2) dels).2 k =
        some ⟨v, match storeGet s k with | some e => e.ver + 1 | none => 1⟩) ∧
    (∀ s reads puts dels k, k ∈ dels →
      (dbCommit s reads puts dels).1.ok = true →
      storeGet (dbCommit s reads puts dels).2 k = none) ∧
    (∀ s reads puts dels, (∀ p ∈ s, 1 ≤ p.2.ver) →
      ∀ p ∈ (dbCommit s reads puts dels).2, 1 ≤ p.2.ver) ∧
    (∀ s req puts1 puts2 k v,
      req.puts = puts1 ++ ⟨k, v⟩ :: puts2 →
      k ∉ puts1.map (fun p => p.key) → k ∉ puts2.map (fun p => p.key) →
      k ∉ req.dels →
      (handleCommit s req).1.ok = true →
      storeGet (handleCommit s req).2 k =
        some ⟨v, match storeGet s k with | some e => e.ver + 1 | none => 1⟩) ∧
    (∀ s req k, k ∈ req.dels →
      (handleCommit s req).1.ok = true →
      storeGet (handleCommit s req).2 k = none) ∧
    (∀ s req, (∀ p ∈ s, 1 ≤ p.2.ver) →
      ∀ p ∈ (handleCommit s req).2, 1 ≤ p.2.ver) := by
  refine ⟨?_, ?_, ?_, ?_, ?_, ?_⟩
  · intro s reads puts1 puts2 k v dels h1 h2 hd hok
    rw [dbCommit_ok_store _ _ _ _ hok]
    exact storeGet_applyAll_put s puts1 puts2 k v dels h1 h2 hd
  · intro s reads puts dels k hk hok
    rw [dbCommit_ok_store _ _ _ _ hok]
    exact storeGet_applyDels_mem _ _ _ hk
  · intro s reads puts dels hs p hp
    unfold dbCommit at hp
    split at hp
    · exact applyAll_ver_ge_one s puts dels hs p hp
    · exact hs p hp
  · intro s req puts1 puts2 k v hreq h1 h2 hd hok
    rw [handleCommit_ok_store _ _ hok, hreq]
    exact storeGet_applyAll_put s puts1 puts2 k v req.dels h1 h2 hd
  · intro s req k hk hok
    rw [handleCommit_ok_store _ _ hok]
    exact storeGet_applyDels_mem _ _ _ hk
  · intro s req hs p hp
    unfold handleCommit at hp
    split at hp
    · exact applyAll_ver_ge_one s req.puts req.dels hs p hp
    · exact hs p hp

/-- Witness for C2 at concrete inputs: putting a fresh key creates it
at version 1, re-putting bumps it to 2, deleting removes it, and the
version-at-least-1 invariant holds for the result. -/
theorem commit_version_rule_witness :
    storeGet (dbCommit [] [] [⟨[107], [1]⟩] []).2 [107] = some ⟨[1], 1⟩ ∧
    storeGet (dbCommit [([107], ⟨[1], 1⟩)] [] [⟨[107], [2]⟩] []).2 [107] =
      some ⟨[2], 2⟩ ∧
    storeGet (dbCommit [([107], ⟨[2], 2⟩)] [] [] [[107]]).2 [107] = none ∧
    ∀ p ∈ (dbCommit [([107], ⟨[1], 1⟩)] [] [⟨[107], [2]⟩] []).2, 1 ≤ p.2.ver := by
  refine ⟨?_, ?_, ?_, ?_⟩
  · exact commit_version_rule.1 [] [] [] [] [107] [1] []
      (by decide) (by decide) (by decide) (by decide)
  · exact commit_version_rule.1 [([107], ⟨[1], 1⟩)] [] [] [] [107] [2] []
      (by decide) (by decide) (by decide) (by decide)
  · exact commit_version_rule.2.1 [([107], ⟨[2], 2⟩)] [] [] [[107]] [107]
      (by decide) (by decide)
  · exact commit_version_rule.2.2.1 [([107], ⟨[1], 1⟩)] [] [⟨[107], [2]⟩] []
      (by decide)

/-! ## C3: phantom protection of range validation -/

theorem rowsMatch_keys (ko : Bool) (rows : List (Key × Entry))
    (obs : List ReadEntryItem) (h : rowsMatch ko rows obs = true) :
    rows.map (fun p => p.1) = obs.map (fun o => o.key) := by
  induction rows generalizing obs with
  | nil =>
    cases obs with
    | nil => rfl
    | cons o orest => cases h
  | cons p rest ih =>
    cases obs with
    | nil => obtain ⟨k, e⟩ := p; cases h
    | cons o orest =>
      obtain ⟨k, e⟩ := p
      simp only [rowsMatch, Bool.and_eq_true, decide_eq_true_eq] at h
      simp only [List.map_cons, h.1.1, List.cons.injEq, true_and]
      exact ih orest h.2

/-- C3: a transaction that recorded a read range conflicts with any
intervening change that altered which keys lie in the range under the
recorded limit: whenever the re-scan's key sequence differs from the
observed key sequence, `dbCommit` answers `ok=false` with
"write conflict" and leaves the store unchanged. -/
theorem phantom_protection (s : Store) (reads : List ReadRangeEntry)
    (rng : ReadRangeEntry) (puts : List PutEntry) (dels : List Key)
    (hmem : rng ∈ reads)
    (hkeys : (dbList s rng.start rng.stop rng.limit).map (fun p => p.1) ≠
      rng.entries.map (fun o => o.key)) :
    (dbCommit s reads puts dels).1 = ⟨false, "write conflict"⟩ ∧
    (dbCommit s reads puts dels).2 = s := by
  have hval : validateRange s rng = false := by
    rw [Bool.eq_false_iff]
    intro h
    exact hkeys (rowsMatch_keys _ _ _ h)
  have hall : ¬reads.all (fun r => validateRange s r) = true := by
    rw [List.all_eq_true]
    intro h
    rw [h rng hmem] at hval
    cases hval
  unfold dbCommit
  rw [if_neg hall]
  exact ⟨rfl, rfl⟩

/-- Witness for C3: the literal phantom-insert scenario.  Store
`{a@1, c@1}`; an intervening commit inserts `b`; the transaction that
scanned `[a, d)` observing `[a@1, c@1]` then fails its commit of
`put(a, "updated")` with a write conflict. -/
theorem phantom_protection_witness :
    (dbCommit
      (dbCommit [([97], ⟨[49], 1⟩), ([99], ⟨[49], 1⟩)] [] [⟨[98], [50]⟩] []).2
      [⟨[97], [100], [⟨[97], 1⟩, ⟨[99], 1⟩], false, 0⟩]
      [⟨[97], [117]⟩] []).1 = ⟨false, "write conflict"⟩ :=
  (phantom_protection
    (dbCommit [([97], ⟨[49], 1⟩), ([99], ⟨[49], 1⟩)] [] [⟨[98], [50]⟩] []).2
    [⟨[97], [100], [⟨[97], 1⟩, ⟨[99], 1⟩], false, 0⟩]
    ⟨[97], [100], [⟨[97], 1⟩, ⟨[99], 1⟩], false, 0⟩
    [⟨[97], [117]⟩] [] (by decide) (by decide)).1

/-! ## C5: validation re-runs the recorded limit -/

/-- C5: commit validation re-runs each read range with its recorded
limit.  With store `{b@1, c@1}` and the recorded range
`(a, z, [b@1], limit=1)`: after an intervening insert of `a` (which
changes the observed prefix) the commit conflicts and the store is
unchanged; after an intervening insert of `d` (beyond the limit) the
same commit succeeds. -/
theorem limit_revalidation :
    (dbCommit (dbCommit [([98], ⟨[49], 1⟩), ([99], ⟨[49], 1⟩)] [] [⟨[97], [49]⟩] []).2
        [⟨[97], [122], [⟨[98], 1⟩], false, 1⟩] [⟨[100], [52]⟩] []).1 =
      ⟨false, "write conflict"⟩ ∧
    (dbCommit (dbCommit [([98], ⟨[49], 1⟩), ([99], ⟨[49], 1⟩)] [] [⟨[97], [49]⟩] []).2
        [⟨[97], [122], [⟨[98], 1⟩], false, 1⟩] [⟨[100], [52]⟩] []).2 =
      (dbCommit [([98], ⟨[49], 1⟩), ([99], ⟨[49], 1⟩)] [] [⟨[97], [49]⟩] []).2 ∧
    (dbCommit (dbCommit [([98], ⟨[49], 1⟩), ([99], ⟨[49], 1⟩)] [] [⟨[100], [52]⟩] []).2
        [⟨[97], [122], [⟨[98], 1⟩], false, 1⟩] [⟨[99], [51]⟩] []).1 =
      ⟨true, ""⟩ := by
  decide

/-! ## C4: keysOnly ranges tolerate value-only updates -/

theorem storeGet_eq_none_iff (s : Store) (k : Key) :
    storeGet s k = none ↔ k ∉ s.map (fun p => p.1) := by
  induction s with
  | nil => simp [storeGet]
  | cons p rest ih =>
    obtain ⟨k', e⟩ := p
    by_cases h : k' = k
    · subst h
      simp [storeGet]
    · simp [storeGet, h, ih, Ne.symm h]

theorem keyProj_storePut_present (s : Store) (k : Key) (v : Value)
    (h : ¬storeGet s k = none) :
    (storePut s k v).map (fun p => p.1) = s.map (fun p => p.1) := by
  induction s with
  | nil => exact absurd rfl h
  | cons p rest ih =>
    obtain ⟨k', e⟩ := p
    by_cases h2 : k' = k
    · subst h2
      simp [storePut]
    · rw [storeGet, if_neg h2] at h
      simp [storePut, h2, ih h]

theorem keyProj_applyPuts_present (s : Store) (puts : List PutEntry)
    (h : ∀ p ∈ puts, ¬storeGet s p.key = none) :
    (applyPuts s puts).map (fun p => p.1) = s.map (fun p => p.1) := by
  induction puts generalizing s with
  | nil => rfl
  | cons q rest ih =>
    have hq : ¬storeGet s q.key = none := h q (List.mem_cons_self ..)
    have hstep := keyProj_storePut_present s q.key q.value hq
    have hrest : ∀ p ∈ rest, ¬storeGet (storePut s q.key q.value) p.key = none := by
      intro p hp hnone
      rw [storeGet_eq_none_iff, hstep, ← storeGet_eq_none_iff] at hnone
      exact h p (List.mem_cons_of_mem _ hp) hnone
    calc (applyPuts s (q :: rest)).map (fun p => p.1)
        = (applyPuts (storePut s q.key q.value) rest).map (fun p => p.1) := rfl
      _ = (storePut s q.key q.value).map (fun p => p.1) := ih _ hrest
      _ = s.map (fun p => p.1) := hstep

theorem keyProj_filter (s : Store) (q : Key → Bool) :
    (s.filter (fun p => q p.1)).map (fun p => p.1) = (s.map (fun p => p.1)).filter q := by
  induction s with
  | nil => rfl
  | cons p rest ih =>
    by_cases h : q p.1 = true <;>
      simp [List.filter_cons, h, ih]

theorem keyProj_insertEntry (p : Key × Entry) (l : List (Key × Entry)) :
    (insertEntry p l).map (fun r => r.1) = insertKey p.1 (l.map (fun r => r.1)) := by
  induction l with
  | nil => rfl
  | cons q rest ih =>
    by_cases h : keyLt p.1 q.1 = true <;>
      simp [insertEntry, insertKey, h, ih]

theorem keyProj_sortEntries (l : List (Key × Entry)) :
    (sortEntries l).map (fun r => r.1) = sortKeys (l.map (fun r => r.1)) := by
  induction l with
  | nil => rfl
  | cons p rest ih =>
    simp [sortEntries, sortKeys, keyProj_insertEntry, ih]

theorem keyProj_dbList (s s' : Store) (a b : Key) (limit : Nat)
    (h : s'.map (fun p => p.1) = s.map (fun p => p.1)) :
    (dbList s' a b limit).map (fun p => p.1) = (dbList s a b limit).map (fun p => p.1) := by
  have hcore : (sortEntries (s'.filter (fun p => inRange a b p.1))).map (fun p => p.1) =
      (sortEntries (s.filter (fun p => inRange a b p.1))).map (fun p => p.1) := by
    rw [keyProj_sortEntries, keyProj_filter, h, ← keyProj_filter, ← keyProj_sortEntries]
  unfold dbList takeLimit
  split
  · rw [List.map_take, List.map_take, hcore]
  · exact hcore

theorem rowsMatch_true_of_keys (rows : List (Key × Entry))
    (obs : List ReadEntryItem)
    (h : rows.map (fun p => p.1) = obs.map (fun o => o.key)) :
    rowsMatch true rows obs = true := by
  induction rows generalizing obs with
  | nil =>
    cases obs with
    | nil => rfl
    | cons o orest => cases h
  | cons p rest ih =>
    cases obs with
    | nil => cases h
    | cons o orest =>
      obtain ⟨k, e⟩ := p
      simp only [List.map_cons, List.cons.injEq] at h
      simp [rowsMatch, h.1, ih orest h.2]

/-- C4: a transaction whose reads were all recorded `keysOnly` does not
conflict with an intervening commit whose puts only update values of
keys already present: its commit still validates and answers
`ok=true`. -/
theorem keysOnly_permissive (s : Store) (reads : List ReadRangeEntry)
    (puts0 puts : List PutEntry) (dels : List Key)
    (hpresent : ∀ p ∈ puts0, ¬storeGet s p.key = none)
    (hko : ∀ rng ∈ reads, rng.keysOnly = true)
    (hval : ∀ rng ∈ reads, validateRange s rng = true) :
    (dbCommit (dbCommit s [] puts0 []).2 reads puts dels).1.ok = true := by
  have hs1 : (dbCommit s [] puts0 []).2 = applyPuts s puts0 := rfl
  rw [hs1]
  have hproj := keyProj_applyPuts_present s puts0 hpresent
  have hall : ∀ rng ∈ reads, validateRange (applyPuts s puts0) rng = true := by
    intro rng hm
    have h1 := hval rng hm
    rw [validateRange, hko rng hm] at h1 ⊢
    have hkeys := rowsMatch_keys true _ _ h1
    refine rowsMatch_true_of_keys _ _ ?_
    rw [keyProj_dbList (s := s) _ _ _ _ hproj, hkeys]
  unfold dbCommit
  rw [if_pos (List.all_eq_true.mpr hall)]

/-- Witness for C4: the literal keysOnly scenario.  Store
`{a@1, b@2}`; an intervening `put(a, "updated")` bumps only `a`'s
value/version; the transaction that scanned `[a, c)` keysOnly
observing keys `a, b` still commits `put(b, "new-b")` with
`ok=true`. -/
theorem keysOnly_permissive_witness :
    (dbCommit
      (dbCommit [([97], ⟨[1], 1⟩), ([98], ⟨[2], 2⟩)] [] [⟨[97], [3]⟩] []).2
      [⟨[97], [99], [⟨[97], 1⟩, ⟨[98], 2⟩], true, 0⟩]
      [⟨[98], [4]⟩] []).1.ok = true :=
  keysOnly_permissive [([97], ⟨[1], 1⟩), ([98], ⟨[2], 2⟩)]
    [⟨[97], [99], [⟨[97], 1⟩, ⟨[98], 2⟩], true, 0⟩]
    [⟨[97], [3]⟩] [⟨[98], [4]⟩] []
    (by decide) (by decide) (by decide)

/-! ## C6: read-your-own-writes in the transaction handle -/

/-- C6: inside a transaction, `get` of a buffered key answers from the
write buffer with no RPC (answering absent when the key is buffered as
a delete) and leaves the state untouched; `get` of an unbuffered key
issues exactly one RPC and records `(key, ver)` in the observed set,
with `ver = 0` and an absent result when the store lacks the key, and
the stored version and value when it has it. -/
theorem txn_get_read_your_writes :
    (∀ ch store tx k v, mapGet tx.buffer k = some v →
      txnGet ch store tx k = ⟨v, tx, 0⟩) ∧
    (∀ store tx k, mapGet tx.buffer k = none →
      (txnGet true store tx k).rpcs = 1 ∧
      (txnGet true store tx k).tx.observed = mapSet tx.observed k (curVer store k) ∧
      (txnGet true store tx k).tx.buffer = tx.buffer ∧
      (storeGet store k = none →
        (txnGet true store tx k).result = none ∧ curVer store k = 0) ∧
      (∀ e, storeGet store k = some e →
        (txnGet true store tx k).result = some e.value ∧ curVer store k = e.ver)) := by
  constructor
  · intro ch store tx k v h
    simp [txnGet, h]
  · intro store tx k h
    cases hs : storeGet store k with
    | none => simp [txnGet, h, handleGet, hs, curVer]
    | some e => simp [txnGet, h, handleGet, hs, curVer]

/-- Witness for C6: with key `[1]` buffered as a value, key `[2]`
buffered as a delete, and key `[3]` unbuffered, `get` answers the
buffered value and the buffered absence without RPC, and reads through
to the store for the unbuffered key. -/
theorem txn_get_read_your_writes_witness :
    txnGet true [([3], ⟨[9], 4⟩)] ⟨[], [([1], some [7]), ([2], none)]⟩ [1] =
      ⟨some [7], ⟨[], [([1], some [7]), ([2], none)]⟩, 0⟩ ∧
    txnGet true [([3], ⟨[9], 4⟩)] ⟨[], [([1], some [7]), ([2], none)]⟩ [2] =
      ⟨none, ⟨[], [([1], some [7]), ([2], none)]⟩, 0⟩ ∧
    (txnGet true [([3], ⟨[9], 4⟩)] ⟨[], [([1], some [7]), ([2], none)]⟩ [3]).result =
      some [9] ∧
    (txnGet true [([3], ⟨[9], 4⟩)] ⟨[], [([1], some [7]), ([2], none)]⟩ [3]).tx.observed =
      mapSet [] [3] (curVer [([3], ⟨[9], 4⟩)] [3]) :=
  ⟨txn_get_read_your_writes.1 true [([3], ⟨[9], 4⟩)] ⟨[], [([1], some [7]), ([2], none)]⟩
      [1] (some [7]) (by decide),
    txn_get_read_your_writes.1 true [([3], ⟨[9], 4⟩)] ⟨[], [([1], some [7]), ([2], none)]⟩
      [2] none (by decide),
    (txn_get_read_your_writes.2 [([3], ⟨[9], 4⟩)] ⟨[], [([1], some [7]), ([2], none)]⟩
      [3] (by decide)).2.2.2.2 ⟨[9], 4⟩ (by decide) |>.1,
    (txn_get_read_your_writes.2 [([3], ⟨[9], 4⟩)] ⟨[], [([1], some [7]), ([2], none)]⟩
      [3] (by decide)).2.1⟩

/-! ## C7: read-only transactions skip commit -/

theorem txnGet_buffer (ch : Bool) (store : Store) (tx : TxnState) (k : Key) :
    (txnGet ch store tx k).tx.buffer = tx.buffer := by
  cases h : mapGet tx.buffer k with
  | none => cases ch <;> simp [txnGet, h]
  | some v => simp [txnGet, h]

theorem scanLoop_buffer (entries : List WireEntry) (n : Nat) (tx : TxnState) :
    (scanLoop tx entries n).buffer = tx.buffer := by
  induction entries generalizing tx n with
  | nil => rfl
  | cons e rest ih =>
    cases n with
    | zero => rfl
    | succ m => exact ih m _

theorem observeFold_buffer (l : List WireEntry) (tx : TxnState) :
    ((l.foldl (fun tx e => { tx with observed := mapSet tx.observed e.key e.ver }) tx).buffer) =
      tx.buffer := by
  induction l generalizing tx with
  | nil => rfl
  | cons e rest ih => exact ih _

theorem applyOp_buffer (ch : Bool) (store : Store) (tx : TxnState) (op : TxnOp)
    (h : op.isWrite = false) : (applyOp ch store tx op).buffer = tx.buffer := by
  cases op with
  | get k => exact txnGet_buffer ..
  | set k v => cases h
  | del k => cases h
  | scan a b ko n => cases ch <;> simp [applyOp, scanLoop_buffer]
  | exist a b => cases ch <;> simp [applyOp, observeFold_buffer]

theorem runOps_buffer (ch : Bool) (store : Store) (ops : List TxnOp)
    (h : ∀ op ∈ ops, op.isWrite = false) : (runOps ch store ops).buffer = [] := by
  suffices hgen : ∀ (l : List TxnOp) (tx : TxnState), (∀ op ∈ l, op.isWrite = false) →
      ((l.foldl (applyOp ch store) tx).buffer) = tx.buffer from hgen ops _ h
  intro l
  induction l with
  | nil => intro tx _; rfl
  | cons op rest ih =>
    intro tx hl
    calc ((op :: rest).foldl (applyOp ch store) tx).buffer
        = (rest.foldl (applyOp ch store) (applyOp ch store tx op)).buffer := rfl
      _ = (applyOp ch store tx op).buffer :=
          ih _ (fun o ho => hl o (List.mem_cons_of_mem _ ho))
      _ = tx.buffer := applyOp_buffer _ _ _ _ (hl op (List.mem_cons_self ..))

/-- C7: a transaction body that performs no `set` and no `delete`
leaves the write buffer empty, and `wskvClient.txn` then sends zero
commit RPCs and returns success with the store untouched. -/
theorem readonly_txn_no_commit (ch : Bool) (store : Store) (ops : List TxnOp)
    (h : ∀ op ∈ ops, op.isWrite = false) :
    (runOps ch store ops).buffer = [] ∧
    runTxn ch store (.ok (runOps ch store ops)) = ⟨.ok (), store, []⟩ := by
  have hb := runOps_buffer ch store ops h
  exact ⟨hb, by simp [runTxn, hb]⟩

/-- Witness for C7: a body that only reads (one get, one scan) sends
no commit and succeeds. -/
theorem readonly_txn_no_commit_witness :
    (runOps true [([5], ⟨[8], 1⟩)] [.get [5], .scan [0] [9] false 3]).buffer = [] ∧
    runTxn true [([5], ⟨[8], 1⟩)]
        (.ok (runOps true [([5], ⟨[8], 1⟩)] [.get [5], .scan [0] [9] false 3])) =
      ⟨.ok (), [([5], ⟨[8], 1⟩)], []⟩ :=
  readonly_txn_no_commit true [([5], ⟨[8], 1⟩)] [.get [5], .scan [0] [9] false 3]
    (by decide)

/-! ## C8: what channel failure during a read actually does -/

/-- Counterexample to C8 as stated: with the channel down and the store
containing key `[97]` (so the key is NOT absent), the transaction's
`get` of `[97]` silently completes as if the key were absent — it
returns `none` and records version 0 — and a read-only transaction
around that read returns success, so no error surfaces from the failed
read. -/
theorem channel_closed_read_counterexample :
    storeGet [([97], ⟨[7], 1⟩)] [97] = some ⟨[7], 1⟩ ∧
    (txnGet false [([97], ⟨[7], 1⟩)] ⟨[], []⟩ [97]).result = none ∧
    (txnGet false [([97], ⟨[7], 1⟩)] ⟨[], []⟩ [97]).tx.observed = [([97], 0)] ∧
    (runTxn false [([97], ⟨[7], 1⟩)]
        (.ok (txnGet false [([97], ⟨[7], 1⟩)] ⟨[], []⟩ [97]).tx)).result = .ok () :=
  ⟨rfl, rfl, rfl, rfl⟩

/-- C8 (amended): on a dead channel a read does not surface an error
itself — `get` of an unbuffered key swallows the send failure,
recording `(key, 0)` in the observed set and returning absent, and
`scan` returns having observed nothing.  The failure surfaces as a
transaction error only through the commit path: a transaction with a
non-empty write buffer fails with "websocket closed" when its commit
send fails, while a read-only transaction still returns success. -/
theorem channel_closed_read_amended :
    (∀ store tx k, mapGet tx.buffer k = none →
      txnGet false store tx k =
        ⟨none, { tx with observed := mapSet tx.observed k 0 }, 1⟩) ∧
    (∀ store tx a b ko n, applyOp false store tx (.scan a b ko n) = tx) ∧
    (∀ store tx, ¬tx.buffer = [] →
      runTxn false store (.ok tx) = ⟨.error "websocket closed", store, []⟩) ∧
    (∀ store obs, runTxn false store (.ok ⟨obs, []⟩) = ⟨.ok (), store, []⟩) := by
  refine ⟨?_, ?_, ?_, ?_⟩
  · intro store tx k h
    simp [txnGet, h]
  · intro store tx a b ko n
    rfl
  · intro store tx h
    simp [runTxn, h]
  · intro store obs
    rfl

/-- Witness for the amended C8 at concrete inputs: the swallowed read,
the failed commit of a writing transaction, and the succeeding
read-only transaction. -/
theorem channel_closed_read_amended_witness :
    txnGet false [([2], ⟨[5], 3⟩)] ⟨[], []⟩ [2] = ⟨none, ⟨[([2], 0)], []⟩, 1⟩ ∧
    runTxn false [([2], ⟨[5], 3⟩)] (.ok ⟨[], [([9], some [1])]⟩) =
      ⟨.error "websocket closed", [([2], ⟨[5], 3⟩)], []⟩ ∧
    runTxn false [([2], ⟨[5], 3⟩)] (.ok ⟨[([2], 0)], []⟩) =
      ⟨.ok (), [([2], ⟨[5], 3⟩)], []⟩ :=
  ⟨channel_closed_read_amended.1 [([2], ⟨[5], 3⟩)] ⟨[], []⟩ [2] (by decide),
    channel_closed_read_amended.2.2.1 [([2], ⟨[5], 3⟩)] ⟨[], [([9], some [1])]⟩
      (by decide),
    channel_closed_read_amended.2.2.2 [([2], ⟨[5], 3⟩)] [([2], 0)]⟩

/-! ## C10: the observed read-set is a map keyed by the raw key -/

theorem mapGet_mapSet_self {β : Type} (m : List (Key × β)) (k : Key) (v : β) :
    mapGet (mapSet m k v) k = some v := by
  induction m with
  | nil => simp [mapGet, mapSet]
  | cons q rest ih =>
    obtain ⟨k', v'⟩ := q
    by_cases h : k' = k <;> simp [mapGet, mapSet, h, ih]

theorem mapGet_mapSet_ne {β : Type} (m : List (Key × β)) (k k' : Key) (v : β)
    (h : k' ≠ k) : mapGet (mapSet m k' v) k = mapGet m k := by
  induction m with
  | nil => simp [mapGet, mapSet, h]
  | cons q rest ih =>
    obtain ⟨k'', v''⟩ := q
    by_cases h2 : k'' = k'
    · subst h2
      simp [mapGet, mapSet, h, Ne.symm h]
    · by_cases h3 : k'' = k <;> simp [mapGet, mapSet, h2, h3, ih, Ne.symm h]

theorem mapSet_keys_mem {β : Type} (m : List (Key × β)) (k k' : Key) (v : β) :
    k ∈ (mapSet m k' v).map (fun q => q.1) ↔ k = k' ∨ k ∈ m.map (fun q => q.1) := by
  induction m with
  | nil => simp [mapSet]
  | cons q rest ih =>
    obtain ⟨k'', v''⟩ := q
    by_cases h : k'' = k'
    · subst h
      have hset : mapSet ((k'', v'') :: rest) k'' v = (k'', v) :: rest := by
        simp [mapSet]
      rw [hset]
      simp only [List.map_cons, List.mem_cons]
      tauto
    · have hset : mapSet ((k'', v'') :: rest) k' v = (k'', v'') :: mapSet rest k' v := by
        simp [mapSet, h]
      rw [hset]
      simp only [List.map_cons, List.mem_cons, ih]
      tauto

theorem mapSet_keys_nodup {β : Type} (m : List (Key × β)) (k : Key) (v : β)
    (h : (m.map (fun q => q.1)).Nodup) : ((mapSet m k v).map (fun q => q.1)).Nodup := by
  induction m with
  | nil => simp [mapSet]
  | cons q rest ih =>
    obtain ⟨k', v'⟩ := q
    rw [List.map_cons, List.nodup_cons] at h
    by_cases h2 : k' = k
    · subst h2
      have hset : mapSet ((k', v') :: rest) k' v = (k', v) :: rest := by
        simp [mapSet]
      rw [hset, List.map_cons, List.nodup_cons]
      exact h
    · simp only [mapSet, if_neg h2, List.map_cons, List.nodup_cons]
      refine ⟨fun hmem => ?_, ih h.2⟩
      rcases (mapSet_keys_mem rest k' k v).mp hmem with h3 | h3
      · exact h2 h3
      · exact h.1 h3

theorem observedFold_lastWins (events : List (Key × Nat)) (k : Key) :
    mapGet (events.foldl (fun m q => mapSet m q.1 q.2) []) k =
      ((events.filter (fun q => q.1 = k)).map (fun q => q.2)).getLast? := by
  induction events using List.reverseRecOn with
  | nil => rfl
  | append_singleton l q ih =>
    rw [List.foldl_append, List.foldl_cons, List.foldl_nil,
      List.filter_append, List.map_append]
    by_cases h : q.1 = k
    · rw [h, mapGet_mapSet_self]
      simp [h, List.getLast?_concat]
    · rw [mapGet_mapSet_ne _ _ _ _ h, ih]
      simp [h]

theorem txnGet_observed_nodup (ch : Bool) (store : Store) (tx : TxnState) (k : Key)
    (h : (tx.observed.map (fun q => q.1)).Nodup) :
    (((txnGet ch store tx k).tx.observed).map (fun q => q.1)).Nodup := by
  cases hb : mapGet tx.buffer k with
  | some v => simpa [txnGet, hb] using h
  | none =>
    cases ch <;> simp [txnGet, hb] <;> exact mapSet_keys_nodup _ _ _ h

theorem scanLoop_observed_nodup (entries : List WireEntry) (n : Nat) (tx : TxnState)
    (h : (tx.observed.map (fun q => q.1)).Nodup) :
    (((scanLoop tx entries n).observed).map (fun q => q.1)).Nodup := by
  induction entries generalizing tx n with
  | nil => exact h
  | cons e rest ih =>
    cases n with
    | zero => exact mapSet_keys_nodup _ _ _ h
    | succ m => exact ih m _ (mapSet_keys_nodup _ _ _ h)

theorem observeFold_observed_nodup (l : List WireEntry) (tx : TxnState)
    (h : (tx.observed.map (fun q => q.1)).Nodup) :
    (((l.foldl (fun tx e => { tx with observed := mapSet tx.observed e.key e.ver }) tx).observed).map
      (fun q => q.1)).Nodup := by
  induction l generalizing tx with
  | nil => exact h
  | cons e rest ih => exact ih _ (mapSet_keys_nodup _ _ _ h)

theorem applyOp_observed_nodup (ch : Bool) (store : Store) (tx : TxnState) (op : TxnOp)
    (h : (tx.observed.map (fun q => q.1)).Nodup) :
    (((applyOp ch store tx op).observed).map (fun q => q.1)).Nodup := by
  cases op with
  | get k => exact txnGet_observed_nodup _ _ _ _ h
  | set k v => exact h
  | del k => exact h
  | scan a b ko n =>
    cases ch
    · exact h
    · exact scanLoop_observed_nodup _ _ _ h
  | exist a b =>
    cases ch
    · exact h
    · exact observeFold_observed_nodup _ _ h

theorem runOps_observed_nodup (ch : Bool) (store : Store) (ops : List TxnOp) :
    (((runOps ch store ops).observed).map (fun q => q.1)).Nodup := by
  suffices hgen : ∀ (l : List TxnOp) (tx : TxnState),
      (tx.observed.map (fun q => q.1)).Nodup →
      (((l.foldl (applyOp ch store) tx).observed).map (fun q => q.1)).Nodup from
    hgen ops ⟨[], []⟩ List.nodup_nil
  intro l
  induction l with
  | nil => exact fun tx h => h
  | cons op rest ih =>
    exact fun tx h => ih _ (applyOp_observed_nodup ch store tx op h)

theorem buildCommit_observed_keys (tx : TxnState) :
    ((buildCommit tx).observed).map (fun o => o.key) = tx.observed.map (fun q => q.1) := by
  rw [buildCommit]
  rw [List.map_map]
  rfl

/-- C10: the observed read-set behaves as a map keyed by the raw key.
The fold of observation events through the map-assignment keeps, for
every key, exactly the version of the most recent observation of that
key; any transaction body leaves an observed set whose keys carry no
duplicates; and the commit message consequently carries at most one
observed entry per key. -/
theorem observed_set_latest_wins :
    (∀ events : List (Key × Nat), ∀ k,
      mapGet (events.foldl (fun m q => mapSet m q.1 q.2) []) k =
        ((events.filter (fun q => q.1 = k)).map (fun q => q.2)).getLast?) ∧
    (∀ ch store ops, (((runOps ch store ops).observed).map (fun q => q.1)).Nodup) ∧
    (∀ tx : TxnState, (tx.observed.map (fun q => q.1)).Nodup →
      (((buildCommit tx).observed).map (fun o => o.key)).Nodup) := by
  refine ⟨observedFold_lastWins, runOps_observed_nodup, ?_⟩
  intro tx h
  rw [buildCommit_observed_keys]
  exact h

/-- Witness for C10: reading key `[1]` twice (versions 4 then 9) keeps
only the later version 9, and the concrete commit message carries
distinct observed keys. -/
theorem observed_set_latest_wins_witness :
    mapGet ([(([1] : Key), 4), ([1], 9)].foldl (fun m q => mapSet m q.1 q.2) []) [1] =
      some 9 ∧
    (((buildCommit ⟨[([1], 9), ([2], 1)], []⟩).observed).map (fun o => o.key)).Nodup :=
  ⟨(observed_set_latest_wins.1 [([1], 4), ([1], 9)] [1]).trans (by decide),
    observed_set_latest_wins.2.2 ⟨[([1], 9), ([2], 1)], []⟩ (by decide)⟩

/-! ## C9: prefix reset commits with an empty observed read-set -/

theorem delFold_observed (entries : List WireEntry) (tx : TxnState) :
    ((entries.foldl (fun tx e => { tx with buffer := mapSet tx.buffer e.key none }) tx).observed) =
      tx.observed := by
  induction entries generalizing tx with
  | nil => rfl
  | cons e rest ih => exact ih _

theorem mapSet_none_allNone (m : List (Key × Option Value)) (k : Key)
    (h : ∀ q ∈ m, q.2 = none) :
    ∀ q ∈ mapSet m k (none : Option Value), q.2 = none := by
  induction m with
  | nil =>
    intro q hq
    rcases List.mem_singleton.mp hq with rfl
    rfl
  | cons r rest ih =>
    obtain ⟨k', v'⟩ := r
    intro q hq
    by_cases h2 : k' = k
    · rw [mapSet, if_pos h2] at hq
      rcases List.mem_cons.mp hq with rfl | hq2
      · rfl
      · exact h q (List.mem_cons_of_mem _ hq2)
    · rw [mapSet, if_neg h2] at hq
      rcases List.mem_cons.mp hq with rfl | hq2
      · exact h _ (List.mem_cons_self ..)
      · exact ih (fun r hr => h r (List.mem_cons_of_mem _ hr)) q hq2

theorem delFold_allNone (entries : List WireEntry) (tx : TxnState)
    (h : ∀ q ∈ tx.buffer, q.2 = none) :
    ∀ q ∈ ((entries.foldl
        (fun tx e => { tx with buffer := mapSet tx.buffer e.key none }) tx).buffer),
      q.2 = none := by
  induction entries generalizing tx with
  | nil => exact h
  | cons e rest ih => exact ih _ (mapSet_none_allNone _ _ h)

theorem delFold_keys (entries : List WireEntry) (tx : TxnState) (k : Key) :
    k ∈ ((entries.foldl
        (fun tx e => { tx with buffer := mapSet tx.buffer e.key none }) tx).buffer).map
          (fun q => q.1) ↔
      k ∈ entries.map (fun e => e.key) ∨ k ∈ tx.buffer.map (fun q => q.1) := by
  induction entries generalizing tx with
  | nil => simp
  | cons e rest ih =>
    rw [List.foldl_cons, ih]
    simp only [mapSet_keys_mem, List.map_cons, List.mem_cons]
    tauto

theorem filterMap_puts_allNone (m : List (Key × Option Value))
    (h : ∀ q ∈ m, q.2 = none) :
    m.filterMap (fun q => q.2.map (fun v => PutEntry.mk q.1 v)) = [] := by
  induction m with
  | nil => rfl
  | cons r rest ih =>
    have hr : r.2 = none := h r (List.mem_cons_self ..)
    simp only [List.filterMap_cons, hr, Option.map_none']
    exact ih (fun q hq => h q (List.mem_cons_of_mem _ hq))

theorem filterMap_dels_allNone (m : List (Key × Option Value))
    (h : ∀ q ∈ m, q.2 = none) :
    m.filterMap (fun q => if q.2 = none then some q.1 else none) =
      m.map (fun q => q.1) := by
  induction m with
  | nil => rfl
  | cons r rest ih =>
    obtain ⟨k', v'⟩ := r
    have hr : v' = none := h (k', v') (List.mem_cons_self ..)
    subst hr
    have hstep : List.filterMap
        (fun q : Key × Option Value => if q.2 = none then some q.1 else none)
        ((k', none) :: rest) =
        k' :: List.filterMap
          (fun q : Key × Option Value => if q.2 = none then some q.1 else none) rest := rfl
    rw [hstep, List.map_cons, ih (fun q hq => h q (List.mem_cons_of_mem _ hq))]

theorem storeGet_applyDels (s : Store) (dels : List Key) (k : Key) :
    storeGet (applyDels s dels) k = if k ∈ dels then none else storeGet s k := by
  by_cases h : k ∈ dels
  · rw [if_pos h, storeGet_applyDels_mem _ _ _ h]
  · rw [if_neg h, storeGet_applyDels_notMem _ _ _ h]

/-- C9: `reset(prefix)` for a non-empty prefix deletes the keys under
the prefix through a transaction whose commit carries an empty observed
read-set: every commit request it sends has `observed = []`, the call
returns success (it can never fail with a write conflict), and the
resulting store is the original minus exactly the scanned keys. -/
theorem reset_prefix_unvalidated (store : Store) (p : Key) (_hp : p ≠ []) :
    (∀ req ∈ (clientReset true store p).commits, req.observed = []) ∧
    (clientReset true store p).result = .ok () ∧
    (∀ k, storeGet ((clientReset true store p).store) k =
      if k ∈ (handleList store p (nextKey p) false 0).map (fun e => e.key) then none
      else storeGet store k) := by
  have hreduce : clientReset true store p =
      runTxn true store (.ok ((handleList store p (nextKey p) false 0).foldl
        (fun tx e => { tx with buffer := mapSet tx.buffer e.key none }) ⟨[], []⟩)) := rfl
  rw [hreduce]
  generalize hent : handleList store p (nextKey p) false 0 = entries
  set bodytx : TxnState := entries.foldl
    (fun tx e => { tx with buffer := mapSet tx.buffer e.key none }) ⟨[], []⟩ with hbody
  have hobs : bodytx.observed = [] := delFold_observed entries ⟨[], []⟩
  have hnone : ∀ q ∈ bodytx.buffer, q.2 = none :=
    delFold_allNone entries ⟨[], []⟩ (by intro q hq; cases hq)
  have hkeys : ∀ k, k ∈ bodytx.buffer.map (fun q => q.1) ↔
      k ∈ entries.map (fun e => e.key) := by
    intro k
    rw [hbody, delFold_keys]
    simp
  by_cases hb : bodytx.buffer = []
  · have hrun : runTxn true store (.ok bodytx) = ⟨.ok (), store, []⟩ := by
      simp [runTxn, hb]
    rw [hrun]
    refine ⟨?_, rfl, ?_⟩
    · intro req hreq
      cases hreq
    · intro k
      have hne : k ∉ entries.map (fun e => e.key) := by
        intro hk
        have hmem := (hkeys k).mpr hk
        rw [hb] at hmem
        cases hmem
      rw [if_neg hne]
  · have hco : checkObserved store (buildCommit bodytx).observed = true := by
      rw [buildCommit]
      simp only [hobs, List.map_nil]
      rfl
    have hhc : handleCommit store (buildCommit bodytx) =
        (⟨true, ""⟩, applyDels (applyPuts store (buildCommit bodytx).puts)
          (buildCommit bodytx).dels) := by
      unfold handleCommit
      rw [if_pos hco]
    have hputs : (buildCommit bodytx).puts = [] := filterMap_puts_allNone _ hnone
    have hdels : (buildCommit bodytx).dels = bodytx.buffer.map (fun q => q.1) :=
      filterMap_dels_allNone _ hnone
    have hrun : runTxn true store (.ok bodytx) =
        ⟨.ok (), applyDels store (bodytx.buffer.map (fun q => q.1)),
          [buildCommit bodytx]⟩ := by
      rw [hputs, hdels] at hhc
      simp [runTxn, hb, hhc, applyPuts]
    rw [hrun]
    refine ⟨?_, rfl, ?_⟩
    · intro req hreq
      rcases List.mem_singleton.mp hreq with rfl
      rw [buildCommit]
      simp only [hobs, List.map_nil]
    · intro k
      rw [show (TxnResult.mk (.ok ()) (applyDels store (bodytx.buffer.map (fun q => q.1)))
          [buildCommit bodytx]).store =
        applyDels store (bodytx.buffer.map (fun q => q.1)) from rfl]
      rw [storeGet_applyDels]
      by_cases hk : k ∈ entries.map (fun e => e.key)
      · rw [if_pos hk, if_pos ((hkeys k).mpr hk)]
      · rw [if_neg hk, if_neg (fun hc => hk ((hkeys k).mp hc))]

/-- Witness for C9: resetting prefix `[106]` on a store holding two
keys under the prefix and one outside deletes exactly the prefixed
keys, succeeds, and (per the theorem) every commit sent carried no
observations. -/
theorem reset_prefix_unvalidated_witness :
    (clientReset true [([106, 1], ⟨[5], 1⟩), ([106, 2], ⟨[6], 2⟩), ([107], ⟨[7], 1⟩)]
        [106]).result = .ok () ∧
    storeGet ((clientReset true
        [([106, 1], ⟨[5], 1⟩), ([106, 2], ⟨[6], 2⟩), ([107], ⟨[7], 1⟩)] [106]).store)
      [106, 1] = none ∧
    storeGet ((clientReset true
        [([106, 1], ⟨[5], 1⟩), ([106, 2], ⟨[6], 2⟩), ([107], ⟨[7], 1⟩)] [106]).store)
      [107] = some ⟨[7], 1⟩ := by
  have h := reset_prefix_unvalidated
    [([106, 1], ⟨[5], 1⟩), ([106, 2], ⟨[6], 2⟩), ([107], ⟨[7], 1⟩)] [106] (by decide)
  exact ⟨h.2.1, (h.2.2 [106, 1]).trans (by decide), (h.2.2 [107]).trans (by decide)⟩

end Wskv
